import Mathlib

set_option linter.unusedSectionVars false

/-!
# Verification of the mangata-sdk core

This file embeds the core of the `@mangata-finance/sdk` repository in Lean 4
and proves the specified properties about it.

Two groups of definitions:

* The fair-interleaving reconstruction core (`recreateExtrinsicsOrder` and its
  seeded draw source).  The repository ships only the reference test for this
  component (`test/recreateExtrinsicsOrder` in the sources); the implementation
  itself lives in files that are not part of the available sources
  (`src/utils/recreateExtrinsicsOrder.ts`, `src/utils/getXorshiroStates.ts` and
  the `mangata-prng-xoshiro` package).  Those definitions are therefore
  modelled from the specification, as indicated in their doc comments.

* The SDK glue that is present in the sources: the `Mangata` singleton
  (`src/Mangata.ts`) and `liquidityPromotedTokenMap`
  (`src/utils/liquidityPromotedTokenMap.ts`), translated directly.
-/

namespace MangataSdk

/-- Error taxonomy of the core, from the spec (§7): `InvalidSeedError` for a
malformed seed; no other recoverable error is modelled (the zero-item case is
treated as returning an empty sequence, one of the two documented choices). -/
inductive SdkError where
  | invalidSeed : SdkError
  deriving DecidableEq, Repr

/-! ## Deterministic Draw Source

Modelled from the spec: the implementation (`getXorshiroStates.ts` and the
`mangata-prng-xoshiro` package) is not among the available sources.  The spec
(§4.1) describes a scrambled linear generator with four 64-bit state words
updated by XOR/shift/rotate steps, whose output is derived by rotating and
multiplying a combination of the state words (the xoshiro256** scrambler), an
`initialize` that splits a 256-bit seed into the four words and rejects every
other length with `InvalidSeedError`, and a `nextInRange` that advances the
generator one step and maps the raw 64-bit output onto `[0, bound)` by a
bias-minimizing wide-multiply reduction. -/

/-- The four 64-bit state words of the generator.  Words are `Nat`s kept below
`2^64` by explicit reductions at every operation. -/
structure GeneratorState where
  s0 : Nat
  s1 : Nat
  s2 : Nat
  s3 : Nat
  deriving DecidableEq, Repr

/-- 64-bit left rotation on `Nat` (inputs are kept below `2^64`). -/
def rotl64 (x k : Nat) : Nat :=
  ((x <<< k) % 2 ^ 64) ||| (x >>> (64 - k))

/-- Modelled from the spec: one generator step.  Returns the scrambled 64-bit
output together with the successor state (xoshiro256**: output
`rotl(s1 * 5, 7) * 9`, linear engine `t = s1 << 17; s2 ^= s0; s3 ^= s1;
s1 ^= s2; s0 ^= s3; s2 ^= t; s3 = rotl(s3, 45)`). -/
def xoshiroNext (g : GeneratorState) : Nat × GeneratorState :=
  let out := (rotl64 ((g.s1 * 5) % 2 ^ 64) 7 * 9) % 2 ^ 64
  let t := (g.s1 <<< 17) % 2 ^ 64
  let a2 := g.s2 ^^^ g.s0
  let a3 := g.s3 ^^^ g.s1
  let a1 := g.s1 ^^^ a2
  let a0 := g.s0 ^^^ a3
  (out, { s0 := a0, s1 := a1, s2 := a2 ^^^ t, s3 := rotl64 a3 45 })

/-- Modelled from the spec: draw one integer in `[0, bound)`, advancing the
generator exactly one step and reducing the raw output by wide multiplication
(`(out * bound) >> 64`). -/
def nextInRange (bound : Nat) (g : GeneratorState) : Nat × GeneratorState :=
  let og := xoshiroNext g
  (og.1 * bound / 2 ^ 64, og.2)

/-- Assemble a 64-bit word from eight bytes, little-endian. -/
def wordOfBytes (bs : List Nat) : Nat :=
  bs.foldr (fun b acc => b + acc * 256) 0

/-- Modelled from the spec: `initialize` splits a 256-bit seed (a byte
sequence) into four 64-bit words, one per state slot, and fails with
`InvalidSeedError` when the seed is not exactly 256 bits (32 bytes) long.
(Named `initGen` here; the spec calls it `initialize`.) -/
def initGen (seed : List Nat) : Except SdkError GeneratorState :=
  if seed.length = 32 then
    .ok { s0 := wordOfBytes (seed.take 8)
        , s1 := wordOfBytes ((seed.drop 8).take 8)
        , s2 := wordOfBytes ((seed.drop 16).take 8)
        , s3 := wordOfBytes ((seed.drop 24).take 8) }
  else
    .error .invalidSeed

/-! ## Fair Interleaving Reconstructor

Modelled from the spec (§4.2): the implementation
(`src/utils/recreateExtrinsicsOrder.ts`) is not among the available sources;
only its reference test is.  The algorithm is the "weighted lottery merge":
partition the input into per-key queues preserving per-key order and first-seen
key order, then repeatedly draw `r` in `[0, total)` (where `total` is the sum
of the remaining queue lengths), walk the queues in the fixed first-seen order
accumulating remaining lengths until the interval containing `r` is found, and
pop the head of the selected queue, until all queues are empty. -/

variable {K V : Type} [DecidableEq K]

/-- Modelled from the spec: append one value to the queue of its key (missing
source `recreateExtrinsicsOrder.ts`), creating the queue at the end
(first-seen key order) when the key is new. -/
def addItem : List (K × List V) → K → V → List (K × List V)
  | [], k, v => [(k, [v])]
  | (k', vs) :: rest, k, v =>
    if k' = k then (k', vs ++ [v]) :: rest else (k', vs) :: addItem rest k v

/-- Modelled from the spec: partition the input into per-key queues, preserving
each key's internal order and recording key first-seen order (spec step 1 of
the missing `recreateExtrinsicsOrder.ts`). -/
def groupByKey (input : List (K × V)) : List (K × List V) :=
  input.foldl (fun qs p => addItem qs p.1 p.2) []

/-- Total number of values remaining over all queues. -/
def totalLen (qs : List (K × List V)) : Nat :=
  (qs.map fun q => q.2.length).sum

/-- Modelled from the spec: the index of the queue whose cumulative-length
interval contains `r`, when walking the queues in their fixed order
accumulating remaining lengths (spec step 3c of the missing
`recreateExtrinsicsOrder.ts`). -/
def selectIdx : Nat → List Nat → Nat
  | _, [] => 0
  | r, n :: ns => if r < n then 0 else selectIdx (r - n) ns + 1

/-- Modelled from the spec: walk the queues in first-seen order accumulating
remaining lengths, pop the head of the queue whose interval contains `r`, and
drop the queue if that empties it (spec steps 3c-3d of the missing
`recreateExtrinsicsOrder.ts`).  Returns `none` when `r` is at least the total remaining length
(never the case for a conforming draw). -/
def popByDraw : Nat → List (K × List V) → Option ((K × V) × List (K × List V))
  | r, (k, []) :: rest =>
    (popByDraw r rest).map fun p => (p.1, (k, ([] : List V)) :: p.2)
  | r, (k, v :: vs) :: rest =>
    if r < vs.length + 1 then
      some ((k, v), if vs.isEmpty then rest else (k, vs) :: rest)
    else
      (popByDraw (r - (vs.length + 1)) rest).map fun p => (p.1, (k, v :: vs) :: p.2)
  | _, [] => none

/-- Modelled from the spec: the merge loop of the missing
`recreateExtrinsicsOrder.ts`, parametrized by the draw source (spec §6: the
Reconstructor depends only on the draw capability).  `fuel` bounds the iteration count; one
draw is consumed per emitted item.  Each output value is returned together
with its originating key. -/
def mergeFuel {σ : Type} (draw : Nat → σ → Nat × σ) :
    Nat → List (K × List V) → σ → List (K × V) × σ
  | 0, _, st => ([], st)
  | fuel + 1, qs, st =>
    if totalLen qs = 0 then ([], st)
    else
      let rs := draw (totalLen qs) st
      match popByDraw rs.1 qs with
      | some (kv, qs') =>
        let rec' := mergeFuel draw fuel qs' rs.2
        (kv :: rec'.1, rec'.2)
      | none => ([], rs.2)

/-- Modelled from the spec: the Reconstructor, keeping the originating key
attached to every output value (the real output is the value sequence alone;
see `recreateExtrinsicsOrder`). -/
def recreateKeyed (input : List (K × V)) (seed : List Nat) :
    Except SdkError (List (K × V)) :=
  (initGen seed).map fun g =>
    (mergeFuel nextInRange input.length (groupByKey input) g).1

/-- Modelled from the spec: `recreateExtrinsicsOrder` groups the tagged input
items into per-key queues and interleaves them by the weighted lottery driven
by the seeded draw source, returning the reordered value sequence. -/
def recreateExtrinsicsOrder (input : List (K × V)) (seed : List Nat) :
    Except SdkError (List V) :=
  (recreateKeyed input seed).map (List.map Prod.snd)

/-- Pair a draw source with a counter of consumed draws. -/
def countingDraw {σ : Type} (draw : Nat → σ → Nat × σ) :
    Nat → σ × Nat → Nat × (σ × Nat) :=
  fun n sc => ((draw n sc.1).1, ((draw n sc.1).2, sc.2 + 1))

/-- The Reconstructor instrumented to report how many draws the run consumed
from the draw source. -/
def recreateCounted (input : List (K × V)) (seed : List Nat) :
    Except SdkError (List (K × V) × Nat) :=
  (initGen seed).map fun g =>
    let p := mergeFuel (countingDraw nextInRange) input.length (groupByKey input) (g, 0)
    (p.1, p.2.2)

/-! ## The `Mangata` singleton (`src/Mangata.ts`)

Translated from the source.  The class holds a private static `instance`
field, modelled as explicit state of type `Option MangataInst` threaded
through `getInstance`; the private constructor stores the `uri` and a `null`
API handle (`api : Option ApiHandle := none`). -/

/-- Opaque stand-in for the `ApiPromise` connection handle. -/
structure ApiHandle where
  id : Nat
  deriving DecidableEq, Repr

/-- The instance fields of the `Mangata` class: `api` (initially `null`) and
the `uri` the instance was constructed with. -/
structure MangataInst where
  api : Option ApiHandle
  uri : String
  deriving DecidableEq, Repr

namespace Mangata

/-- The private constructor (`Mangata.ts` lines 28-31): stores the URI and a
`null` API handle. -/
def construct (uri : String) : MangataInst :=
  { api := none, uri := uri }

/-- `Mangata.getInstance` (`Mangata.ts` lines 49-55): if the static `instance`
field is unset, construct a new instance from `uri` and store it; return the
stored instance.  The static field is the second component of the result. -/
def getInstance (uri : String) (stat : Option MangataInst) :
    MangataInst × Option MangataInst :=
  match stat with
  | none =>
    let m := construct uri
    (m, some m)
  | some m => (m, some m)

end Mangata

/-! ## `liquidityPromotedTokenMap` (`src/utils/liquidityPromotedTokenMap.ts`)

Translated from the source.  The only use the function makes of `api` is the
awaited chain-state query `api.query.issuance.promotedPoolsRewards.entries()`,
modelled as its outcome: either the returned list of entries or a thrown
error.  Each returned entry is a `[key, value]` pair of which only the storage
key is used (`([key]) => key.args.map((k) => k.toHuman())[0]`); the key is
modelled by its list of arguments, `toHuman` by an abstract function, and the
JavaScript `[0]` index (which is `undefined` on an empty array) by `head?`. -/

/-- Outcome of an awaited query: a value, or a thrown error. -/
inductive QueryOutcome (α : Type) where
  | success : α → QueryOutcome α
  | failure : QueryOutcome α
  deriving DecidableEq, Repr

/-- A storage key as consumed by the function: its argument list. -/
structure StorageKey (α : Type) where
  args : List α
  deriving DecidableEq, Repr

/-- `liquidityPromotedTokenMap`: try the `promotedPoolsRewards.entries()`
query; on a thrown error return `[]`; otherwise map each entry's key to the
first human-readable key argument. -/
def liquidityPromotedTokenMap {α : Type} (toHuman : α → String)
    (entriesResult : QueryOutcome (List (StorageKey α))) : List (Option String) :=
  match entriesResult with
  | .failure => []
  | .success entries => entries.map fun key => (key.args.map toHuman).head?


/-! ## Views of the queue state used by the correctness statements -/

/-- All pending values, tagged with their key, in queue-walk order. -/
def joinKV (qs : List (K × List V)) : List (K × V) :=
  (qs.map fun q => q.2.map fun v => (q.1, v)).flatten

/-- The pending values of key `k`, in order. -/
def keyVals (k : K) (qs : List (K × List V)) : List V :=
  (qs.map fun q => if q.1 = k then q.2 else []).flatten

/-- A concrete well-formed 32-byte seed, used by the witness theorems. -/
def sampleSeed : List Nat := List.replicate 32 7

/-- A concrete keyed input, used by the witness theorems. -/
def sampleInput : List (Nat × Nat) := [(1, 10), (2, 20), (1, 11)]

theorem totalLen_cons (q : K × List V) (rest : List (K × List V)) :
    totalLen (q :: rest) = q.2.length + totalLen rest := by
  simp [totalLen]

theorem joinKV_cons (q : K × List V) (rest : List (K × List V)) :
    joinKV (q :: rest) = (q.2.map fun v => (q.1, v)) ++ joinKV rest := by
  simp [joinKV]

theorem keyVals_cons (k : K) (q : K × List V) (rest : List (K × List V)) :
    keyVals k (q :: rest) = (if q.1 = k then q.2 else []) ++ keyVals k rest := by
  simp [keyVals]

theorem joinKV_eq_nil (qs : List (K × List V)) (h : totalLen qs = 0) :
    joinKV qs = [] := by
  induction qs with
  | nil => rfl
  | cons q rest ih =>
    rw [totalLen_cons] at h
    have h1 : q.2 = [] := List.length_eq_zero.mp (by omega)
    rw [joinKV_cons, h1, ih (by omega)]
    rfl

theorem keyVals_eq_nil (k : K) (qs : List (K × List V)) (h : totalLen qs = 0) :
    keyVals k qs = [] := by
  induction qs with
  | nil => rfl
  | cons q rest ih =>
    rw [totalLen_cons] at h
    have h1 : q.2 = [] := List.length_eq_zero.mp (by omega)
    rw [keyVals_cons, h1, ih (by omega)]
    simp

theorem keyVals_eq_nil_of_not_mem (k : K) (qs : List (K × List V))
    (h : k ∉ qs.map Prod.fst) : keyVals k qs = [] := by
  induction qs with
  | nil => rfl
  | cons q rest ih =>
    simp only [List.map_cons, List.mem_cons, not_or] at h
    rw [keyVals_cons, if_neg (fun hh => h.1 hh.symm), ih h.2]
    rfl

/-! ## Properties of `popByDraw` -/

theorem popByDraw_exists (qs : List (K × List V)) (r : Nat)
    (h : r < totalLen qs) : ∃ kv qs', popByDraw r qs = some (kv, qs') := by
  induction qs generalizing r with
  | nil => simp [totalLen] at h
  | cons q rest ih =>
    obtain ⟨k, vs⟩ := q
    cases vs with
    | nil =>
      rw [totalLen_cons] at h
      obtain ⟨kv, qs', hp⟩ := ih r (by simpa using h)
      exact ⟨kv, (k, []) :: qs', by simp [popByDraw, hp]⟩
    | cons v vs' =>
      by_cases hr : r < vs'.length + 1
      · exact ⟨(k, v), if vs'.isEmpty then rest else (k, vs') :: rest,
          by simp [popByDraw, hr]⟩
      · have h2 : r - (vs'.length + 1) < totalLen rest := by
          rw [totalLen_cons] at h
          simp only [List.length_cons] at h
          omega
        obtain ⟨kv, qs', hp⟩ := ih _ h2
        exact ⟨kv, (k, v :: vs') :: qs', by simp [popByDraw, hr, hp]⟩

theorem popByDraw_totalLen (qs : List (K × List V)) (r : Nat) (kv : K × V)
    (qs' : List (K × List V)) (h : popByDraw r qs = some (kv, qs')) :
    totalLen qs = totalLen qs' + 1 := by
  induction qs generalizing r qs' with
  | nil => simp [popByDraw] at h
  | cons q rest ih =>
    obtain ⟨k, vs⟩ := q
    cases vs with
    | nil =>
      simp only [popByDraw, Option.map_eq_some'] at h
      obtain ⟨⟨kv₂, rest'⟩, hp, he⟩ := h
      cases he
      have := ih r rest' hp
      rw [totalLen_cons, totalLen_cons, this]
      simp [Nat.add_assoc]
    | cons v vs' =>
      by_cases hr : r < vs'.length + 1
      · simp only [popByDraw, hr, if_true, Option.some_inj] at h
        cases h
        cases vs' with
        | nil => simp [totalLen_cons]; omega
        | cons w ws => simp [totalLen_cons]; omega
      · simp only [popByDraw, hr, if_false, Option.map_eq_some'] at h
        obtain ⟨⟨kv₂, rest'⟩, hp, he⟩ := h
        cases he
        have hlen := ih _ rest' hp
        simp only [totalLen_cons] at hlen ⊢
        omega

theorem popByDraw_joinKV (qs : List (K × List V)) (r : Nat) (kv : K × V)
    (qs' : List (K × List V)) (h : popByDraw r qs = some (kv, qs')) :
    List.Perm (joinKV qs) (kv :: joinKV qs') := by
  induction qs generalizing r qs' with
  | nil => simp [popByDraw] at h
  | cons q rest ih =>
    obtain ⟨k, vs⟩ := q
    cases vs with
    | nil =>
      simp only [popByDraw, Option.map_eq_some'] at h
      obtain ⟨⟨kv₂, rest'⟩, hp, he⟩ := h
      cases he
      have := ih r rest' hp
      rw [joinKV_cons, joinKV_cons]
      simpa using this
    | cons v vs' =>
      by_cases hr : r < vs'.length + 1
      · simp only [popByDraw, hr, if_true, Option.some_inj] at h
        cases h
        cases vs' with
        | nil => simp [joinKV_cons]
        | cons w ws => simp [joinKV_cons]
      · simp only [popByDraw, hr, if_false, Option.map_eq_some'] at h
        obtain ⟨⟨kv₂, rest'⟩, hp, he⟩ := h
        cases he
        have hperm := ih _ rest' hp
        rw [joinKV_cons, joinKV_cons]
        exact (List.Perm.append_left _ hperm).trans List.perm_middle

theorem popByDraw_fst_mem (qs : List (K × List V)) (r : Nat) (kv : K × V)
    (qs' : List (K × List V)) (h : popByDraw r qs = some (kv, qs')) :
    kv.1 ∈ qs.map Prod.fst := by
  induction qs generalizing r qs' with
  | nil => simp [popByDraw] at h
  | cons q rest ih =>
    obtain ⟨k, vs⟩ := q
    cases vs with
    | nil =>
      simp only [popByDraw, Option.map_eq_some'] at h
      obtain ⟨⟨kv₂, rest'⟩, hp, he⟩ := h
      cases he
      simpa using Or.inr (ih r rest' hp)
    | cons v vs' =>
      by_cases hr : r < vs'.length + 1
      · simp only [popByDraw, hr, if_true, Option.some_inj] at h
        cases h
        simp
      · simp only [popByDraw, hr, if_false, Option.map_eq_some'] at h
        obtain ⟨⟨kv₂, rest'⟩, hp, he⟩ := h
        cases he
        simpa using Or.inr (ih _ rest' hp)

theorem popByDraw_keys_sublist (qs : List (K × List V)) (r : Nat) (kv : K × V)
    (qs' : List (K × List V)) (h : popByDraw r qs = some (kv, qs')) :
    List.Sublist (qs'.map Prod.fst) (qs.map Prod.fst) := by
  induction qs generalizing r qs' with
  | nil => simp [popByDraw] at h
  | cons q rest ih =>
    obtain ⟨k, vs⟩ := q
    cases vs with
    | nil =>
      simp only [popByDraw, Option.map_eq_some'] at h
      obtain ⟨⟨kv₂, rest'⟩, hp, he⟩ := h
      cases he
      simpa using List.Sublist.cons₂ k (ih r rest' hp)
    | cons v vs' =>
      by_cases hr : r < vs'.length + 1
      · simp only [popByDraw, hr, if_true, Option.some_inj] at h
        cases h
        cases vs' with
        | nil => simp
        | cons w ws => simp
      · simp only [popByDraw, hr, if_false, Option.map_eq_some'] at h
        obtain ⟨⟨kv₂, rest'⟩, hp, he⟩ := h
        cases he
        simpa using List.Sublist.cons₂ k (ih _ rest' hp)

theorem popByDraw_keyVals (qs : List (K × List V)) (r : Nat) (kv : K × V)
    (qs' : List (K × List V)) (hnd : (qs.map Prod.fst).Nodup)
    (h : popByDraw r qs = some (kv, qs')) :
    keyVals kv.1 qs = kv.2 :: keyVals kv.1 qs' ∧
      ∀ k, k ≠ kv.1 → keyVals k qs = keyVals k qs' := by
  induction qs generalizing r qs' with
  | nil => simp [popByDraw] at h
  | cons q rest ih =>
    obtain ⟨k, vs⟩ := q
    have hnd' : (rest.map Prod.fst).Nodup := (List.nodup_cons.mp hnd).2
    have hknotin : k ∉ rest.map Prod.fst := (List.nodup_cons.mp hnd).1
    cases vs with
    | nil =>
      simp only [popByDraw, Option.map_eq_some'] at h
      obtain ⟨⟨kv₂, rest'⟩, hp, he⟩ := h
      cases he
      obtain ⟨ih1, ih2⟩ := ih r rest' hnd' hp
      constructor
      · rw [keyVals_cons, keyVals_cons, ih1]
        by_cases hk : k = kv₂.1 <;> simp [hk]
      · intro k' hk'
        rw [keyVals_cons, keyVals_cons, ih2 k' hk']
    | cons v vs' =>
      by_cases hr : r < vs'.length + 1
      · simp only [popByDraw, hr, if_true, Option.some_inj] at h
        cases h
        constructor
        · cases vs' with
          | nil =>
            rw [keyVals_cons]
            simp [keyVals_eq_nil_of_not_mem _ _ hknotin]
          | cons w ws =>
            simp only [List.isEmpty_cons, Bool.false_eq_true, if_false]
            rw [keyVals_cons, keyVals_cons]
            simp
        · intro k' hk'
          have : ¬ k = k' := fun hh => hk' (hh.symm)
          cases vs' with
          | nil =>
            rw [keyVals_cons]
            simp [this]
          | cons w ws =>
            simp only [List.isEmpty_cons, Bool.false_eq_true, if_false]
            rw [keyVals_cons, keyVals_cons]
            simp [this]
      · simp only [popByDraw, hr, if_false, Option.map_eq_some'] at h
        obtain ⟨⟨kv₂, rest'⟩, hp, he⟩ := h
        cases he
        obtain ⟨ih1, ih2⟩ := ih _ rest' hnd' hp
        have hkne : k ≠ kv₂.1 := by
          intro hh
          exact hknotin (hh ▸ popByDraw_fst_mem rest _ kv₂ rest' hp)
        constructor
        · rw [keyVals_cons, keyVals_cons, ih1, if_neg (fun hh => hkne hh)]
          simp
        · intro k' hk'
          rw [keyVals_cons, keyVals_cons, ih2 k' hk']

/-! ## Properties of the merge loop

All of them hold for an arbitrary draw source whose draws conform to the
requested bound (`hconf`), which `nextInRange` satisfies
(`nextInRange_conforms`). -/

theorem mergeFuel_of_totalLen_zero {σ : Type} (draw : Nat → σ → Nat × σ)
    (fuel : Nat) (qs : List (K × List V)) (st : σ) (h : totalLen qs = 0) :
    mergeFuel draw fuel qs st = ([], st) := by
  cases fuel with
  | zero => rfl
  | succ n => simp [mergeFuel, h]

theorem mergeFuel_length {σ : Type} (draw : Nat → σ → Nat × σ)
    (hconf : ∀ n st, 0 < n → (draw n st).1 < n) (fuel : Nat)
    (qs : List (K × List V)) (st : σ) (hfuel : totalLen qs ≤ fuel) :
    ((mergeFuel draw fuel qs st).1).length = totalLen qs := by
  induction fuel generalizing qs st with
  | zero => simp [mergeFuel]; omega
  | succ n ih =>
    by_cases h0 : totalLen qs = 0
    · simp [mergeFuel, h0]
    · have hpos : 0 < totalLen qs := Nat.pos_of_ne_zero h0
      have hr := hconf (totalLen qs) st hpos
      obtain ⟨kv, qs', hp⟩ := popByDraw_exists qs _ hr
      have hlen := popByDraw_totalLen qs _ kv qs' hp
      simp only [mergeFuel, h0, if_false, hp]
      simp only [List.length_cons]
      rw [ih qs' _ (by omega)]
      omega

theorem mergeFuel_perm {σ : Type} (draw : Nat → σ → Nat × σ)
    (hconf : ∀ n st, 0 < n → (draw n st).1 < n) (fuel : Nat)
    (qs : List (K × List V)) (st : σ) (hfuel : totalLen qs ≤ fuel) :
    List.Perm ((mergeFuel draw fuel qs st).1) (joinKV qs) := by
  induction fuel generalizing qs st with
  | zero =>
    have h0 : totalLen qs = 0 := by omega
    simp [mergeFuel, joinKV_eq_nil qs h0]
  | succ n ih =>
    by_cases h0 : totalLen qs = 0
    · simp [mergeFuel, h0, joinKV_eq_nil qs h0]
    · have hpos : 0 < totalLen qs := Nat.pos_of_ne_zero h0
      have hr := hconf (totalLen qs) st hpos
      obtain ⟨kv, qs', hp⟩ := popByDraw_exists qs _ hr
      have hlen := popByDraw_totalLen qs _ kv qs' hp
      simp only [mergeFuel, h0, if_false, hp]
      exact (List.Perm.cons kv (ih qs' _ (by omega))).trans
        (popByDraw_joinKV qs _ kv qs' hp).symm

theorem mergeFuel_keyVals {σ : Type} (draw : Nat → σ → Nat × σ)
    (hconf : ∀ n st, 0 < n → (draw n st).1 < n) (k : K) (fuel : Nat)
    (qs : List (K × List V)) (st : σ) (hnd : (qs.map Prod.fst).Nodup)
    (hfuel : totalLen qs ≤ fuel) :
    ((mergeFuel draw fuel qs st).1).filterMap
        (fun p => if p.1 = k then some p.2 else none) = keyVals k qs := by
  induction fuel generalizing qs st with
  | zero =>
    have h0 : totalLen qs = 0 := by omega
    simp [mergeFuel, (keyVals_eq_nil k qs h0).symm]
  | succ n ih =>
    by_cases h0 : totalLen qs = 0
    · simp [mergeFuel, h0, (keyVals_eq_nil k qs h0).symm]
    · have hpos : 0 < totalLen qs := Nat.pos_of_ne_zero h0
      have hr := hconf (totalLen qs) st hpos
      obtain ⟨kv, qs', hp⟩ := popByDraw_exists qs _ hr
      have hlen := popByDraw_totalLen qs _ kv qs' hp
      have hnd' : (qs'.map Prod.fst).Nodup :=
        (popByDraw_keys_sublist qs _ kv qs' hp).nodup hnd
      obtain ⟨hkv1, hkv2⟩ := popByDraw_keyVals qs _ kv qs' hnd hp
      simp only [mergeFuel, h0, if_false, hp]
      rw [List.filterMap_cons]
      by_cases hk : kv.1 = k
      · subst hk
        simp only [if_pos rfl]
        rw [ih qs' _ hnd' (by omega), hkv1]
        simp
      · simp only [if_neg hk]
        rw [ih qs' _ hnd' (by omega), hkv2 k (fun hh => hk hh.symm)]

theorem mergeFuel_counting {σ : Type} (draw : Nat → σ → Nat × σ)
    (hconf : ∀ n st, 0 < n → (draw n st).1 < n) (fuel : Nat)
    (qs : List (K × List V)) (st : σ) (c : Nat) (hfuel : totalLen qs ≤ fuel) :
    mergeFuel (countingDraw draw) fuel qs (st, c) =
      ((mergeFuel draw fuel qs st).1,
        ((mergeFuel draw fuel qs st).2, c + totalLen qs)) := by
  induction fuel generalizing qs st c with
  | zero =>
    have h0 : totalLen qs = 0 := by omega
    simp [mergeFuel, h0]
  | succ n ih =>
    by_cases h0 : totalLen qs = 0
    · simp [mergeFuel, h0]
    · have hpos : 0 < totalLen qs := Nat.pos_of_ne_zero h0
      have hr := hconf (totalLen qs) st hpos
      obtain ⟨kv, qs', hp⟩ := popByDraw_exists qs _ hr
      have hlen := popByDraw_totalLen qs _ kv qs' hp
      simp only [mergeFuel, h0, if_false, countingDraw, hp]
      rw [ih qs' _ (c + 1) (by omega)]
      have : c + 1 + totalLen qs' = c + totalLen qs := by omega
      rw [this]

theorem mergeFuel_single {σ : Type} (draw : Nat → σ → Nat × σ)
    (hconf : ∀ n st, 0 < n → (draw n st).1 < n) (k : K) (fuel : Nat)
    (vs : List V) (st : σ) (hfuel : vs.length ≤ fuel) :
    (mergeFuel draw fuel [(k, vs)] st).1 = vs.map fun v => (k, v) := by
  induction vs generalizing fuel st with
  | nil =>
    rw [mergeFuel_of_totalLen_zero draw fuel [(k, [])] st (by simp [totalLen])]
    rfl
  | cons v vs' ih =>
    cases fuel with
    | zero => simp at hfuel
    | succ n =>
      have h0 : totalLen [(k, v :: vs')] = vs'.length + 1 := by
        simp [totalLen]
      have hpos : totalLen [(k, v :: vs')] ≠ 0 := by omega
      have hr := hconf (totalLen [(k, v :: vs')]) st (Nat.pos_of_ne_zero hpos)
      have hrlt : (draw (totalLen [(k, v :: vs')]) st).1 < vs'.length + 1 := by
        omega
      have hpop : popByDraw (draw (totalLen [(k, v :: vs')]) st).1 [(k, v :: vs')] =
          some ((k, v), if vs'.isEmpty then [] else [(k, vs')]) := by
        simp [popByDraw, hrlt]
      simp only [mergeFuel, hpos, if_false, hpop]
      cases vs' with
      | nil =>
        simp only [List.isEmpty_nil, if_true]
        rw [mergeFuel_of_totalLen_zero draw n [] _ (by simp [totalLen])]
        simp
      | cons w ws =>
        simp only [List.isEmpty_cons, Bool.false_eq_true, if_false]
        rw [ih n _ (by simp at hfuel ⊢; omega)]
        simp

/-! ## Properties of the partition into per-key queues -/

theorem addItem_totalLen (qs : List (K × List V)) (k : K) (v : V) :
    totalLen (addItem qs k v) = totalLen qs + 1 := by
  induction qs with
  | nil => simp [addItem, totalLen]
  | cons q rest ih =>
    obtain ⟨k', vs⟩ := q
    by_cases hk : k' = k
    · simp [addItem, hk, totalLen_cons]
      omega
    · simp only [addItem, hk, if_false]
      rw [totalLen_cons, totalLen_cons, ih]
      omega

theorem addItem_keys (qs : List (K × List V)) (k : K) (v : V) :
    (addItem qs k v).map Prod.fst =
      if k ∈ qs.map Prod.fst then qs.map Prod.fst else qs.map Prod.fst ++ [k] := by
  induction qs with
  | nil => simp [addItem]
  | cons q rest ih =>
    obtain ⟨k', vs⟩ := q
    by_cases hk : k' = k
    · simp [addItem, hk]
    · have : ¬ k = k' := fun hh => hk hh.symm
      simp only [addItem, hk, if_false, List.map_cons, List.mem_cons, this,
        false_or, ih]
      by_cases hm : k ∈ rest.map Prod.fst <;> simp [hm]

theorem addItem_nodup (qs : List (K × List V)) (k : K) (v : V)
    (hnd : (qs.map Prod.fst).Nodup) : ((addItem qs k v).map Prod.fst).Nodup := by
  rw [addItem_keys]
  by_cases hm : k ∈ qs.map Prod.fst
  · simpa [hm] using hnd
  · simp only [hm, if_false]
    simp [List.nodup_append, hnd, hm]

theorem addItem_keyVals (qs : List (K × List V)) (k k' : K) (v : V)
    (hnd : (qs.map Prod.fst).Nodup) :
    keyVals k' (addItem qs k v) =
      if k' = k then keyVals k' qs ++ [v] else keyVals k' qs := by
  induction qs with
  | nil =>
    by_cases hk : k' = k
    · simp [addItem, keyVals, hk]
    · have : ¬ k = k' := fun hh => hk hh.symm
      simp [addItem, keyVals, hk, this]
  | cons q rest ih =>
    obtain ⟨k₁, vs⟩ := q
    have hnd' : (rest.map Prod.fst).Nodup := (List.nodup_cons.mp hnd).2
    have hnotin : k₁ ∉ rest.map Prod.fst := (List.nodup_cons.mp hnd).1
    by_cases hk1 : k₁ = k
    · subst hk1
      have hstep : addItem ((k₁, vs) :: rest) k₁ v = (k₁, vs ++ [v]) :: rest := by
        simp [addItem]
      rw [hstep]
      by_cases hk : k' = k₁
      · subst hk
        have hz : keyVals k' rest = [] := keyVals_eq_nil_of_not_mem _ _ hnotin
        simp [keyVals_cons, hz]
      · have h2 : ¬ k₁ = k' := fun hh => hk hh.symm
        simp [keyVals_cons, hk, h2]
    · have hstep : addItem ((k₁, vs) :: rest) k v = (k₁, vs) :: addItem rest k v := by
        simp [addItem, hk1]
      rw [hstep]
      simp only [keyVals_cons, ih hnd']
      by_cases hk : k' = k
      · simp [hk]
      · simp [hk]

theorem addItem_joinKV (qs : List (K × List V)) (k : K) (v : V) :
    List.Perm (joinKV (addItem qs k v)) (joinKV qs ++ [(k, v)]) := by
  induction qs with
  | nil => simp [addItem, joinKV]
  | cons q rest ih =>
    obtain ⟨k₁, vs⟩ := q
    by_cases hk1 : k₁ = k
    · subst hk1
      have hstep : addItem ((k₁, vs) :: rest) k₁ v = (k₁, vs ++ [v]) :: rest := by
        simp [addItem]
      rw [hstep]
      simp only [joinKV_cons, List.map_append, List.map_cons, List.map_nil,
        List.append_assoc]
      refine List.Perm.append_left _ ?_
      exact (List.perm_append_singleton (k₁, v) (joinKV rest)).symm
    · have hstep : addItem ((k₁, vs) :: rest) k v = (k₁, vs) :: addItem rest k v := by
        simp [addItem, hk1]
      rw [hstep]
      simp only [joinKV_cons, List.append_assoc]
      exact List.Perm.append_left _ ih

/-- The partition step used by `groupByKey`, as a fold. -/
theorem groupByKey_eq_foldl (input : List (K × V)) :
    groupByKey input = input.foldl (fun qs p => addItem qs p.1 p.2) [] := rfl

theorem foldl_addItem_nodup (input : List (K × V)) (qs : List (K × List V))
    (hnd : (qs.map Prod.fst).Nodup) :
    ((input.foldl (fun qs p => addItem qs p.1 p.2) qs).map Prod.fst).Nodup := by
  induction input generalizing qs with
  | nil => simpa using hnd
  | cons p rest ih =>
    simp only [List.foldl_cons]
    exact ih _ (addItem_nodup qs p.1 p.2 hnd)

theorem foldl_addItem_totalLen (input : List (K × V)) (qs : List (K × List V)) :
    totalLen (input.foldl (fun qs p => addItem qs p.1 p.2) qs) =
      totalLen qs + input.length := by
  induction input generalizing qs with
  | nil => simp
  | cons p rest ih =>
    simp only [List.foldl_cons, List.length_cons, ih, addItem_totalLen]
    omega

theorem foldl_addItem_keyVals (input : List (K × V)) (k : K)
    (qs : List (K × List V)) (hnd : (qs.map Prod.fst).Nodup) :
    keyVals k (input.foldl (fun qs p => addItem qs p.1 p.2) qs) =
      keyVals k qs ++ (input.filter fun p => p.1 = k).map Prod.snd := by
  induction input generalizing qs with
  | nil => simp
  | cons p rest ih =>
    simp only [List.foldl_cons]
    rw [ih _ (addItem_nodup qs p.1 p.2 hnd), addItem_keyVals qs p.1 k p.2 hnd]
    by_cases hk : p.1 = k
    · rw [if_pos hk.symm]
      simp [List.filter_cons, hk, List.append_assoc]
    · rw [if_neg (fun hh => hk hh.symm)]
      simp [List.filter_cons, hk]

theorem foldl_addItem_joinKV (input : List (K × V)) (qs : List (K × List V)) :
    List.Perm (joinKV (input.foldl (fun qs p => addItem qs p.1 p.2) qs))
      (joinKV qs ++ input) := by
  induction input generalizing qs with
  | nil => simp
  | cons p rest ih =>
    simp only [List.foldl_cons]
    refine (ih _).trans ?_
    have h1 : List.Perm (joinKV (addItem qs p.1 p.2) ++ rest)
        ((joinKV qs ++ [(p.1, p.2)]) ++ rest) :=
      List.Perm.append_right rest (addItem_joinKV qs p.1 p.2)
    refine h1.trans ?_
    rw [List.append_assoc]
    simp

theorem groupByKey_nodup (input : List (K × V)) :
    ((groupByKey input).map Prod.fst).Nodup :=
  foldl_addItem_nodup input [] (by simp)

theorem groupByKey_totalLen (input : List (K × V)) :
    totalLen (groupByKey input) = input.length := by
  rw [groupByKey_eq_foldl, foldl_addItem_totalLen]
  simp [totalLen]

theorem groupByKey_keyVals (input : List (K × V)) (k : K) :
    keyVals k (groupByKey input) = (input.filter fun p => p.1 = k).map Prod.snd := by
  rw [groupByKey_eq_foldl, foldl_addItem_keyVals input k [] (by simp)]
  rfl

theorem groupByKey_joinKV (input : List (K × V)) :
    List.Perm (joinKV (groupByKey input)) input := by
  have := foldl_addItem_joinKV input []
  rw [groupByKey_eq_foldl]
  simpa using this

/-- A single-key input groups into one queue holding all its values. -/
theorem groupByKey_single (k : K) (input : List (K × V)) (hne : input ≠ [])
    (hk : ∀ p ∈ input, p.1 = k) :
    groupByKey input = [(k, input.map Prod.snd)] := by
  have main : ∀ (l : List (K × V)) (ws : List V), (∀ p ∈ l, p.1 = k) →
      l.foldl (fun qs p => addItem qs p.1 p.2) [(k, ws)] =
        [(k, ws ++ l.map Prod.snd)] := by
    intro l
    induction l with
    | nil => simp
    | cons p rest ih =>
      intro ws hl
      have hp : p.1 = k := hl p (by simp)
      have hstep : addItem [(k, ws)] p.1 p.2 = [(k, ws ++ [p.2])] := by
        simp [addItem, hp]
      simp only [List.foldl_cons, hstep]
      rw [ih (ws ++ [p.2]) (fun q hq => hl q (by simp [hq]))]
      simp
  obtain ⟨p, rest, rfl⟩ := List.exists_cons_of_ne_nil hne
  have hp : p.1 = k := hk p (by simp)
  rw [groupByKey_eq_foldl]
  simp only [List.foldl_cons]
  have hstep : addItem [] p.1 p.2 = [(k, [p.2])] := by simp [addItem, hp]
  rw [hstep, main rest [p.2] (fun q hq => hk q (by simp [hq]))]
  simp

/-! ## Conformance of the modelled draw source -/

theorem xoshiroNext_lt (g : GeneratorState) : (xoshiroNext g).1 < 2 ^ 64 := by
  exact Nat.mod_lt _ (by norm_num)

theorem nextInRange_conforms (n : Nat) (g : GeneratorState) (h : 0 < n) :
    (nextInRange n g).1 < n := by
  have hout : (xoshiroNext g).1 < 2 ^ 64 := xoshiroNext_lt g
  have : (xoshiroNext g).1 * n < n * 2 ^ 64 := by
    calc (xoshiroNext g).1 * n < 2 ^ 64 * n := by
          exact Nat.mul_lt_mul_of_lt_of_le hout (Nat.le_refl n) h
      _ = n * 2 ^ 64 := Nat.mul_comm _ _
  exact (Nat.div_lt_iff_lt_mul (by norm_num)).mpr this

theorem countingDraw_conforms {σ : Type} (draw : Nat → σ → Nat × σ)
    (hconf : ∀ n st, 0 < n → (draw n st).1 < n) :
    ∀ n sc, 0 < n → (countingDraw draw n sc).1 < n := by
  intro n sc h
  exact hconf n sc.1 h

/-! ## Properties of the interval walk `selectIdx` -/

theorem selectIdx_lt (r : Nat) (lens : List Nat) (h : r < lens.sum) :
    selectIdx r lens < lens.length := by
  induction lens generalizing r with
  | nil => simp at h
  | cons n ns ih =>
    by_cases hr : r < n
    · simp [selectIdx, hr]
    · have h2 : r - n < ns.sum := by simp at h; omega
      simp only [selectIdx, hr, if_false, List.length_cons]
      exact Nat.succ_lt_succ (ih _ h2)

theorem selectIdx_interval (r : Nat) (lens : List Nat) (h : r < lens.sum) :
    (lens.take (selectIdx r lens)).sum ≤ r ∧
      r < (lens.take (selectIdx r lens + 1)).sum := by
  induction lens generalizing r with
  | nil => simp at h
  | cons n ns ih =>
    by_cases hr : r < n
    · simp [selectIdx, hr]
    · have h2 : r - n < ns.sum := by simp at h; omega
      obtain ⟨ih1, ih2⟩ := ih _ h2
      simp only [selectIdx, hr, if_false, List.take_succ_cons, List.sum_cons]
      omega

theorem selectIdx_at_cumsum (lens : List Nat) (i : Nat) (hi : i < lens.length)
    (hpos : ∀ n ∈ lens, 0 < n) :
    (lens.take i).sum < lens.sum ∧ selectIdx ((lens.take i).sum) lens = i := by
  induction lens generalizing i with
  | nil => simp at hi
  | cons n ns ih =>
    cases i with
    | zero =>
      have hn : 0 < n := hpos n (by simp)
      simp [selectIdx, hn]
    | succ j =>
      have hj : j < ns.length := by simpa using hi
      obtain ⟨ih1, ih2⟩ := ih j hj (fun m hm => hpos m (by simp [hm]))
      have hsum : ((n :: ns).take (j + 1)).sum = n + (ns.take j).sum := by
        simp
      constructor
      · simp only [hsum, List.sum_cons]
        omega
      · have hnl : ¬ n + (ns.take j).sum < n := by omega
        simp only [hsum, selectIdx, hnl, if_false]
        have : n + (ns.take j).sum - n = (ns.take j).sum := by omega
        rw [this, ih2]

theorem popByDraw_fst_at_selectIdx (qs : List (K × List V)) (r : Nat)
    (kv : K × V) (qs' : List (K × List V))
    (h : popByDraw r qs = some (kv, qs')) :
    (qs.map Prod.fst)[selectIdx r (qs.map fun q => q.2.length)]? = some kv.1 := by
  induction qs generalizing r qs' with
  | nil => simp [popByDraw] at h
  | cons q rest ih =>
    obtain ⟨k, vs⟩ := q
    cases vs with
    | nil =>
      simp only [popByDraw, Option.map_eq_some'] at h
      obtain ⟨⟨kv₂, rest'⟩, hp, he⟩ := h
      cases he
      have hns : ¬ r < ([] : List V).length := by simp
      simp only [List.map_cons, selectIdx, List.length_nil, hns, if_false,
        Nat.sub_zero]
      simpa using ih r rest' hp
    | cons v vs' =>
      by_cases hr : r < vs'.length + 1
      · simp only [popByDraw, hr, if_true, Option.some_inj] at h
        cases h
        simp [selectIdx, hr]
      · simp only [popByDraw, hr, if_false, Option.map_eq_some'] at h
        obtain ⟨⟨kv₂, rest'⟩, hp, he⟩ := h
        cases he
        simp only [List.map_cons, selectIdx, List.length_cons, hr, if_false]
        rw [List.getElem?_cons_succ]
        exact ih _ rest' hp

/-! ## The claims -/

/-- C1: for every input sequence of (key, value) pairs and every valid 256-bit
seed, and for every key `k`, the sub-sequence of the Reconstructor's output
consisting of the values originally tagged with `k` equals, in order, the
sub-sequence of the input consisting of the values tagged with `k` (FIFO per
key is never violated, regardless of the draws). -/
theorem claim_C1_per_key_order_preserved (input : List (K × V)) (seed : List Nat)
    (hseed : seed.length = 32) (k : K) :
    ∃ out, recreateKeyed input seed = .ok out ∧
      recreateExtrinsicsOrder input seed = .ok (out.map Prod.snd) ∧
      out.filterMap (fun p => if p.1 = k then some p.2 else none) =
        (input.filter fun p => p.1 = k).map Prod.snd := by
  obtain ⟨g, hg⟩ : ∃ g, initGen seed = .ok g := by
    simp only [initGen, if_pos hseed]
    exact ⟨_, rfl⟩
  refine ⟨(mergeFuel nextInRange input.length (groupByKey input) g).1, ?_, ?_, ?_⟩
  · simp only [recreateKeyed, hg]
    rfl
  · simp only [recreateExtrinsicsOrder, recreateKeyed, hg]
    rfl
  · rw [mergeFuel_keyVals nextInRange nextInRange_conforms k input.length
      (groupByKey input) g (groupByKey_nodup input)
      (by rw [groupByKey_totalLen])]
    exact groupByKey_keyVals input k

/-- Witness for C1: the per-key order statement at a concrete input, seed and
key. -/
theorem claim_C1_witness :
    sampleSeed.length = 32 ∧
    (∃ out, recreateKeyed sampleInput sampleSeed = .ok out ∧
      recreateExtrinsicsOrder sampleInput sampleSeed = .ok (out.map Prod.snd) ∧
      out.filterMap (fun p => if p.1 = 1 then some p.2 else none) =
        (sampleInput.filter fun p => p.1 = 1).map Prod.snd) :=
  ⟨by decide, claim_C1_per_key_order_preserved sampleInput sampleSeed (by decide) 1⟩

/-- C3: for every input sequence and every valid seed, the Reconstructor's
output is a permutation of the input values: same length and same multiset of
values, no duplication, no loss. -/
theorem claim_C3_output_is_permutation (input : List (K × V)) (seed : List Nat)
    (hseed : seed.length = 32) :
    ∃ out, recreateExtrinsicsOrder input seed = .ok out ∧
      List.Perm out (input.map Prod.snd) ∧ out.length = input.length := by
  obtain ⟨g, hg⟩ : ∃ g, initGen seed = .ok g := by
    simp only [initGen, if_pos hseed]
    exact ⟨_, rfl⟩
  refine ⟨(mergeFuel nextInRange input.length (groupByKey input) g).1.map Prod.snd,
    ?_, ?_, ?_⟩
  · simp only [recreateExtrinsicsOrder, recreateKeyed, hg]
    rfl
  · have h1 := mergeFuel_perm nextInRange nextInRange_conforms input.length
      (groupByKey input) g (by rw [groupByKey_totalLen])
    exact (h1.map Prod.snd).trans ((groupByKey_joinKV input).map Prod.snd)
  · rw [List.length_map, mergeFuel_length nextInRange nextInRange_conforms
      input.length (groupByKey input) g (by rw [groupByKey_totalLen]),
      groupByKey_totalLen]

/-- Witness for C3: the permutation statement at a concrete input and seed. -/
theorem claim_C3_witness :
    sampleSeed.length = 32 ∧
    (∃ out, recreateExtrinsicsOrder sampleInput sampleSeed = .ok out ∧
      List.Perm out (sampleInput.map Prod.snd) ∧ out.length = sampleInput.length) :=
  ⟨by decide, claim_C3_output_is_permutation sampleInput sampleSeed (by decide)⟩

/-- C4: determinism (two-run property): two calls of the Reconstructor with the
same input and the same seed produce identical output sequences; the result
depends on nothing but the input and the seed.  In this pure functional
embedding the Reconstructor threads all of its state (generator words, queues,
draw counter) explicitly, so the property is witnessed by congruence: there is
no other state for the result to depend on. -/
theorem claim_C4_determinism (input₁ input₂ : List (K × V))
    (seed₁ seed₂ : List Nat) (hi : input₁ = input₂) (hs : seed₁ = seed₂) :
    recreateExtrinsicsOrder input₁ seed₁ = recreateExtrinsicsOrder input₂ seed₂ ∧
      recreateKeyed input₁ seed₁ = recreateKeyed input₂ seed₂ ∧
      recreateCounted input₁ seed₁ = recreateCounted input₂ seed₂ := by
  subst hi
  subst hs
  exact ⟨rfl, rfl, rfl⟩

/-- Witness for C4: the two-run property at a concrete input and seed. -/
theorem claim_C4_witness :
    sampleInput = sampleInput ∧ sampleSeed = sampleSeed ∧
    (recreateExtrinsicsOrder sampleInput sampleSeed =
        recreateExtrinsicsOrder sampleInput sampleSeed ∧
      recreateKeyed sampleInput sampleSeed = recreateKeyed sampleInput sampleSeed ∧
      recreateCounted sampleInput sampleSeed = recreateCounted sampleInput sampleSeed) :=
  ⟨rfl, rfl, claim_C4_determinism sampleInput sampleInput sampleSeed sampleSeed rfl rfl⟩

/-- C5: for every input of `n` items and every valid seed, a Reconstructor run
terminates and consumes exactly `n` draws from the Draw Source (one draw per
output item): the instrumented run reports a draw count equal to the input
length, and the output has that same length. -/
theorem claim_C5_one_draw_per_item (input : List (K × V)) (seed : List Nat)
    (hseed : seed.length = 32) :
    ∃ out, recreateCounted input seed = .ok (out, input.length) ∧
      out.length = input.length := by
  obtain ⟨g, hg⟩ : ∃ g, initGen seed = .ok g := by
    simp only [initGen, if_pos hseed]
    exact ⟨_, rfl⟩
  have hc := mergeFuel_counting nextInRange nextInRange_conforms input.length
    (groupByKey input) g 0 (by rw [groupByKey_totalLen])
  refine ⟨(mergeFuel nextInRange input.length (groupByKey input) g).1, ?_, ?_⟩
  · have hrun : recreateCounted input seed = .ok
        ((mergeFuel (countingDraw nextInRange) input.length (groupByKey input) (g, 0)).1,
         (mergeFuel (countingDraw nextInRange) input.length (groupByKey input) (g, 0)).2.2) := by
      simp only [recreateCounted, hg]
      rfl
    rw [hrun, hc]
    simp [groupByKey_totalLen]
  · rw [mergeFuel_length nextInRange nextInRange_conforms input.length
      (groupByKey input) g (by rw [groupByKey_totalLen]), groupByKey_totalLen]

/-- Witness for C5: the draw-count statement at a concrete input and seed. -/
theorem claim_C5_witness :
    sampleSeed.length = 32 ∧
    (∃ out, recreateCounted sampleInput sampleSeed = .ok (out, sampleInput.length) ∧
      out.length = sampleInput.length) :=
  ⟨by decide, claim_C5_one_draw_per_item sampleInput sampleSeed (by decide)⟩

/-- C6: for every seed whose length is not exactly 32 bytes, `initGen` — and
any Reconstructor call using that seed — fails with `InvalidSeedError` before
any draw is consumed and without producing any output (the plain and the
draw-counting Reconstructor both return the bare error, so no draw was counted
and no queue or generator state was built); for every 32-byte seed no
`InvalidSeedError` is raised. -/
theorem claim_C6_seed_validation (seed : List Nat) :
    (seed.length ≠ 32 →
      initGen seed = .error SdkError.invalidSeed ∧
      ∀ input : List (K × V),
        recreateExtrinsicsOrder input seed = .error SdkError.invalidSeed ∧
        recreateCounted input seed = .error SdkError.invalidSeed) ∧
    (seed.length = 32 →
      ∃ g, initGen seed = .ok g ∧
        ∀ input : List (K × V), ∃ outn,
          recreateCounted input seed = .ok outn) := by
  constructor
  · intro h
    have he : initGen seed = .error SdkError.invalidSeed := by simp [initGen, h]
    exact ⟨he, fun input =>
      ⟨by simp only [recreateExtrinsicsOrder, recreateKeyed, he]; rfl,
       by simp only [recreateCounted, he]; rfl⟩⟩
  · intro h
    have hg : initGen seed = .ok
        { s0 := wordOfBytes (seed.take 8)
        , s1 := wordOfBytes ((seed.drop 8).take 8)
        , s2 := wordOfBytes ((seed.drop 16).take 8)
        , s3 := wordOfBytes ((seed.drop 24).take 8) } := by
      simp [initGen, h]
    refine ⟨_, hg, fun input => ?_⟩
    unfold recreateCounted
    rw [hg]
    exact ⟨_, rfl⟩

/-- Witness for C6: seed validation at a concrete short seed and a concrete
valid seed. -/
theorem claim_C6_witness :
    ((List.replicate 31 (0 : Nat)).length ≠ 32 ∧
      initGen (List.replicate 31 0) = .error SdkError.invalidSeed ∧
      recreateExtrinsicsOrder (K := Nat) (V := Nat) [(1, 10)]
          (List.replicate 31 0) = .error SdkError.invalidSeed) ∧
    (sampleSeed.length = 32 ∧
      ∃ g, initGen sampleSeed = .ok g ∧
        ∀ input : List (Nat × Nat), ∃ outn,
          recreateCounted input sampleSeed = .ok outn) :=
  ⟨⟨by decide,
    ((claim_C6_seed_validation (K := Nat) (V := Nat) (List.replicate 31 0)).1
      (by decide)).1,
    (((claim_C6_seed_validation (K := Nat) (V := Nat) (List.replicate 31 0)).1
      (by decide)).2 [(1, 10)]).1⟩,
   ⟨by decide,
    (claim_C6_seed_validation (K := Nat) (V := Nat) sampleSeed).2 (by decide)⟩⟩

/-- C7: at every iteration of the merge loop, given the draw `r` in
`[0, total)` where `total` is the sum of remaining queue lengths, the queue
selected is exactly the one whose cumulative-length interval contains `r` when
the non-empty queues are walked in first-seen key order accumulating remaining
lengths; consequently every non-empty queue corresponds to a non-empty interval
and has at least one value of `r` selecting it (no queue can starve). -/
theorem claim_C7_interval_selection (qs : List (K × List V)) (r : Nat)
    (hq : ∀ q ∈ qs, q.2 ≠ []) (hr : r < totalLen qs) :
    (∃ kv qs', popByDraw r qs = some (kv, qs') ∧
        (qs.map Prod.fst)[selectIdx r (qs.map fun q => q.2.length)]? = some kv.1) ∧
      ((qs.map fun q => q.2.length).take
          (selectIdx r (qs.map fun q => q.2.length))).sum ≤ r ∧
      r < ((qs.map fun q => q.2.length).take
          (selectIdx r (qs.map fun q => q.2.length) + 1)).sum ∧
      ∀ i, i < qs.length → ∃ r', r' < totalLen qs ∧
        selectIdx r' (qs.map fun q => q.2.length) = i := by
  have hsum : (qs.map fun q => q.2.length).sum = totalLen qs := rfl
  obtain ⟨kv, qs', hp⟩ := popByDraw_exists qs r hr
  obtain ⟨hint1, hint2⟩ := selectIdx_interval r _ (by rw [hsum]; exact hr)
  refine ⟨⟨kv, qs', hp, popByDraw_fst_at_selectIdx qs r kv qs' hp⟩,
    hint1, hint2, ?_⟩
  intro i hi
  have hpos : ∀ n ∈ qs.map fun q => q.2.length, 0 < n := by
    intro n hn
    obtain ⟨q, hq2, hlen⟩ := List.mem_map.mp hn
    rw [← hlen]
    exact List.length_pos.mpr (hq q hq2)
  obtain ⟨h1, h2⟩ := selectIdx_at_cumsum _ i (by simpa using hi) hpos
  exact ⟨_, by rw [← hsum]; exact h1, h2⟩

/-- Witness for C7: the interval selection statement at a concrete queue state
and draw. -/
theorem claim_C7_witness :
    ((∀ q ∈ [((1 : Nat), [(10 : Nat)]), (2, [20, 21])], q.2 ≠ []) ∧
      1 < totalLen [((1 : Nat), [(10 : Nat)]), (2, [20, 21])]) ∧
    ((∃ kv qs', popByDraw 1 [((1 : Nat), [(10 : Nat)]), (2, [20, 21])] =
          some (kv, qs') ∧
        ([((1 : Nat), [(10 : Nat)]), (2, [20, 21])].map
            Prod.fst)[selectIdx 1
          ([((1 : Nat), [(10 : Nat)]), (2, [20, 21])].map
            fun q => q.2.length)]? = some kv.1) ∧
      (([((1 : Nat), [(10 : Nat)]), (2, [20, 21])].map fun q => q.2.length).take
          (selectIdx 1 ([((1 : Nat), [(10 : Nat)]), (2, [20, 21])].map
            fun q => q.2.length))).sum ≤ 1 ∧
      1 < (([((1 : Nat), [(10 : Nat)]), (2, [20, 21])].map fun q => q.2.length).take
          (selectIdx 1 ([((1 : Nat), [(10 : Nat)]), (2, [20, 21])].map
            fun q => q.2.length) + 1)).sum ∧
      ∀ i, i < [((1 : Nat), [(10 : Nat)]), (2, [20, 21])].length →
        ∃ r', r' < totalLen [((1 : Nat), [(10 : Nat)]), (2, [20, 21])] ∧
          selectIdx r' ([((1 : Nat), [(10 : Nat)]), (2, [20, 21])].map
            fun q => q.2.length) = i) :=
  ⟨⟨by decide, by decide⟩,
   claim_C7_interval_selection [((1 : Nat), [(10 : Nat)]), (2, [20, 21])] 1
     (by decide) (by decide)⟩

/-- C8: for every valid seed and every input whose pairs all carry the same
single key, the Reconstructor returns the input's values unchanged and in the
same order, independently of the seed. -/
theorem claim_C8_single_key_unchanged (input : List (K × V)) (k : K)
    (hk : ∀ p ∈ input, p.1 = k) (seed : List Nat) (hseed : seed.length = 32) :
    recreateExtrinsicsOrder input seed = .ok (input.map Prod.snd) := by
  obtain ⟨g, hg⟩ : ∃ g, initGen seed = .ok g := by
    simp only [initGen, if_pos hseed]
    exact ⟨_, rfl⟩
  have hrun : recreateExtrinsicsOrder input seed =
      .ok (((mergeFuel nextInRange input.length (groupByKey input) g).1).map Prod.snd) := by
    simp only [recreateExtrinsicsOrder, recreateKeyed, hg]
    rfl
  by_cases hin : input = []
  · subst hin
    rw [hrun]
    rfl
  · have hgb := groupByKey_single k input hin hk
    have hm := mergeFuel_single nextInRange nextInRange_conforms k input.length
      (input.map Prod.snd) g (by simp)
    rw [hrun, hgb, hm]
    simp [List.map_map, Function.comp]

/-- Witness for C8: the single-key statement at a concrete input and seed. -/
theorem claim_C8_witness :
    (∀ p ∈ [((5 : Nat), (1 : Nat)), (5, 2), (5, 3)], p.1 = 5) ∧
      sampleSeed.length = 32 ∧
      recreateExtrinsicsOrder [((5 : Nat), (1 : Nat)), (5, 2), (5, 3)]
        sampleSeed = .ok [1, 2, 3] :=
  ⟨by decide, by decide,
   claim_C8_single_key_unchanged [((5 : Nat), (1 : Nat)), (5, 2), (5, 3)] 5
     (by decide) sampleSeed (by decide)⟩

/-- C9: `Mangata.getInstance` is idempotent and ignores its argument after the
first call: for every pair of URI strings `u1` and `u2`, `getInstance u1`
followed by `getInstance u2` returns the same single instance, which remains
configured with `u1` (the second URI is silently discarded), and on any
already-set static field `getInstance` returns the stored instance unchanged. -/
theorem claim_C9_getInstance_singleton (u1 u2 : String) :
    (Mangata.getInstance u2 (Mangata.getInstance u1 none).2).1 =
        (Mangata.getInstance u1 none).1 ∧
      (Mangata.getInstance u1 none).1.uri = u1 ∧
      (Mangata.getInstance u2 (Mangata.getInstance u1 none).2).2 =
        (Mangata.getInstance u1 none).2 ∧
      ∀ m, Mangata.getInstance u2 (some m) = (m, some m) :=
  ⟨rfl, rfl, rfl, fun _ => rfl⟩

/-- C10: `liquidityPromotedTokenMap` never propagates an error: when the
underlying chain-state query throws, it returns the empty list; otherwise it
returns, for each returned entry, the first human-readable key argument. -/
theorem claim_C10_token_map_swallows_errors {α : Type} (toHuman : α → String)
    (entries : List (StorageKey α)) :
    liquidityPromotedTokenMap toHuman .failure = [] ∧
      liquidityPromotedTokenMap toHuman (.success entries) =
        entries.map fun key => key.args.head?.map toHuman := by
  refine ⟨rfl, ?_⟩
  simp [liquidityPromotedTokenMap, List.head?_map]

end MangataSdk
